import Mathlib

/-!
Shallow embedding of the heart-rate estimation core of the heartbeat-android
repository (src/app/src/main/jni/opencv.cpp and RPPGSimple.cpp).

Real-valued quantities of the C++ code (doubles) are embedded as rationals,
so every definition is executable and all arithmetic is exact.  Matrices are
embedded as Mathlib matrices over ℚ, signal windows as lists of rationals.
-/

namespace Heartbeat

/-- Largest finite IEEE-754 double, the value `std::numeric_limits<double>::max()`
used by `cv::getFps` as the maximal-rate sentinel. -/
def maxRate : ℚ := 2 ^ 1024 - 2 ^ 971

/-- Embedding of `cv::getFps` (opencv.cpp, lines 21-35).  The timestamp buffer
`t` is a single column of `long` values; `timeBase` scales timestamp units to
seconds.  Empty buffer yields `1.0`; a single sample or zero elapsed time
yields the maximal-rate sentinel; otherwise the code returns
`t.rows / ((tLast - tFirst) * timeBase)`. -/
def getFps (t : List ℤ) (timeBase : ℚ) : ℚ :=
  if t.length = 0 then 1
  else if t.length = 1 then maxRate
  else
    let diff : ℚ := ((t.getLastD 0 - t.headD 0 : ℤ) : ℚ) * timeBase
    if diff = 0 then maxRate else (t.length : ℚ) / diff

theorem maxRate_pos : 0 < maxRate := by
  have h : (2 : ℚ) ^ 971 < 2 ^ 1024 := by
    refine pow_lt_pow_right₀ (by norm_num) (by norm_num)
  simpa [maxRate, sub_pos] using h

/-- Elapsed time between the first and last buffered timestamp, in seconds:
`(t.at(t.rows-1) - t.at(0)) * timeBase` in `cv::getFps`. -/
def elapsedTime (t : List ℤ) (timeBase : ℚ) : ℚ :=
  ((t.getLastD 0 - t.headD 0 : ℤ) : ℚ) * timeBase

theorem getFps_eq (t : List ℤ) (tb : ℚ) :
    getFps t tb =
      if t.length = 0 then 1
      else if t.length = 1 then maxRate
      else if elapsedTime t tb = 0 then maxRate else (t.length : ℚ) / elapsedTime t tb := rfl

theorem le_getLastD_of_pairwise (l : List ℤ) (a : ℤ)
    (h : List.Pairwise (· ≤ ·) (a :: l)) : a ≤ (a :: l).getLastD 0 := by
  induction l generalizing a with
  | nil => simp [List.getLastD_cons]
  | cons b l ih =>
      have hab : a ≤ b := (List.pairwise_cons.mp h).1 b (by simp)
      have hb : b ≤ (b :: l).getLastD 0 := ih b (List.pairwise_cons.mp h).2
      calc a ≤ b := hab
        _ ≤ (b :: l).getLastD 0 := hb
        _ = (a :: b :: l).getLastD 0 := by
            simp [List.getLastD_cons]

/-- Claim C2 (counterexample): for the two-sample buffer `t = [0, 10]` with
`timeBase = 1` (count = 2, elapsed = 10), the code returns
`count / elapsed = 1/5`, not the claimed `(count - 1) / elapsed = 1/10`. -/
theorem getFps_claim_counterexample :
    getFps [0, 10] 1 = 1 / 5 ∧ (1 / 5 : ℚ) ≠ (2 - 1) / ((10 - 0) * 1) := by
  constructor
  · rw [getFps_eq]
    simp [elapsedTime]
    norm_num
  · norm_num

/-- Claim C2 (amended): the effective sample rate is `count / elapsed` (not
`(count-1) / elapsed`) when the buffer holds at least two samples and the
elapsed time is nonzero; an empty buffer yields the constant `1` (not the
sentinel); exactly one sample, or zero elapsed time, yields the maximal-rate
sentinel; and for monotone non-decreasing timestamps and positive `timeBase`
the returned rate is strictly positive, no division by zero occurring. -/
theorem getFps_amended (t : List ℤ) (tb : ℚ) :
    (t = [] → getFps t tb = 1) ∧
    (t.length = 1 → getFps t tb = maxRate) ∧
    (2 ≤ t.length → elapsedTime t tb = 0 → getFps t tb = maxRate) ∧
    (2 ≤ t.length → elapsedTime t tb ≠ 0 →
      getFps t tb = (t.length : ℚ) / elapsedTime t tb) ∧
    (List.Pairwise (· ≤ ·) t → 0 < tb → 0 < getFps t tb) := by
  refine ⟨?_, ?_, ?_, ?_, ?_⟩
  · intro h; subst h; rfl
  · intro h; simp [getFps_eq, h]
  · intro hlen hz
    have h0 : t.length ≠ 0 := by omega
    have h1 : t.length ≠ 1 := by omega
    simp [getFps_eq, h0, h1, hz]
  · intro hlen hz
    have h0 : t.length ≠ 0 := by omega
    have h1 : t.length ≠ 1 := by omega
    simp [getFps_eq, h0, h1, hz]
  · intro hmono htb
    rw [getFps_eq]
    by_cases h0 : t.length = 0
    · simp [h0]
    by_cases h1 : t.length = 1
    · simp [h0, h1, maxRate_pos]
    by_cases hz : elapsedTime t tb = 0
    · simp [h0, h1, hz, maxRate_pos]
    · simp only [h0, h1, hz, if_false]
      have hne : t ≠ [] := by
        intro h; rw [h] at h0; exact h0 rfl
      obtain ⟨a, l, rfl⟩ := List.exists_cons_of_ne_nil hne
      have hle : a ≤ (a :: l).getLastD 0 := le_getLastD_of_pairwise l a hmono
      have hdiffnn : (0 : ℚ) ≤ ((a :: l).getLastD 0 - (a :: l).headD 0 : ℤ) := by
        simp only [List.headD_cons]
        exact_mod_cast sub_nonneg.mpr hle
      have helnn : 0 ≤ elapsedTime (a :: l) tb :=
        mul_nonneg hdiffnn htb.le
      have help : 0 < elapsedTime (a :: l) tb := lt_of_le_of_ne helnn (Ne.symm hz)
      have hlp : (0 : ℚ) < (a :: l).length := by
        exact_mod_cast Nat.pos_of_ne_zero h0
      exact div_pos hlp help

/-- Witness for the amended C2 theorem at the concrete buffer `[0, 10]` with
`timeBase = 1`. -/
theorem getFps_amended_witness :
    getFps [0, 10] 1 = ((2 : ℚ) / 10) ∧ 0 < getFps [0, 10] 1 := by
  constructor
  · have hz : elapsedTime [0, 10] 1 ≠ 0 := by
      simp [elapsedTime]
    have h := (getFps_amended [0, 10] 1).2.2.2.1 (by decide) hz
    rw [h]
    simp [elapsedTime]
  · exact (getFps_amended [0, 10] 1).2.2.2.2 (by decide) (by norm_num)

/-- First differences of a signal window, as computed by
`subtract(a.rowRange(1, rows), a.rowRange(0, rows-1), diff)`:
entry `k` is `a[k+1] - a[k]`. -/
def diffs (a : List ℚ) : List ℚ :=
  List.zipWith (fun x y => x - y) a.tail a

/-- Arithmetic mean of a list of rationals; the empty list yields `0`,
matching what `cv::meanStdDev` reports for an empty mask. -/
def listMean (xs : List ℚ) : ℚ := xs.sum / (xs.length : ℚ)

/-- Population variance, the square of the standard deviation reported by
`cv::meanStdDev`; the empty list yields `0`. -/
def popVar (xs : List ℚ) : ℚ :=
  ((xs.map fun x => (x - listMean xs) ^ 2).sum) / (xs.length : ℚ)

/-- Embedding of the single-channel `cv::validate` (opencv.cpp, lines 67-143).
Input: the channel's buffered window `a`, whether the previous sample was
classified good (`b.at(b.rows-1)`), and the channel's pending flag.  Output:
(classification of the newest sample, updated pending flag).  The statistic
`σ` is the standard deviation of the first differences with the newest
difference masked out; the double comparison `|d| > 2σ` is embedded exactly
as `d² > 4σ²` (both sides nonnegative), and `|d| > σ` as `d² > σ²`. -/
def validate1 (a : List ℚ) (prevOk : Bool) (flag : Bool) : Bool × Bool :=
  let diff := diffs a
  let d := diff.getLastD 0
  let v := popVar diff.dropLast
  if prevOk then
    if d ^ 2 > 4 * v then
      if flag then (false, false) else (true, true)
    else (true, false)
  else
    if d ^ 2 > v then (false, false)
    else if flag then (true, false) else (false, true)

/-- Claim C3: the per-channel noise validator realizes exactly the six-row
hysteresis transition table of the spec, where `d` is the newest first
difference and `σ` (given here through its square `v = σ²`) the standard
deviation of the first differences excluding the newest; in particular
(last conjunct) with the previous sample accepted and no pending flag, the
newest sample is always accepted, so a single one-frame outlier of magnitude
greater than `2σ` between stable samples is never rejected. -/
theorem validate1_table (a : List ℚ) (prevOk flag : Bool) (h2 : 2 ≤ a.length)
    (d v : ℚ) (hd : d = (diffs a).getLastD 0) (hv : v = popVar ((diffs a).dropLast)) :
    ((prevOk = true → ¬ d ^ 2 > 4 * v → validate1 a prevOk flag = (true, false)) ∧
     (prevOk = true → d ^ 2 > 4 * v → flag = false → validate1 a prevOk flag = (true, true)) ∧
     (prevOk = true → d ^ 2 > 4 * v → flag = true → validate1 a prevOk flag = (false, false)) ∧
     (prevOk = false → d ^ 2 > v → validate1 a prevOk flag = (false, false)) ∧
     (prevOk = false → ¬ d ^ 2 > v → flag = false → validate1 a prevOk flag = (false, true)) ∧
     (prevOk = false → ¬ d ^ 2 > v → flag = true → validate1 a prevOk flag = (true, false))) ∧
    (prevOk = true → flag = false → (validate1 a prevOk flag).1 = true) := by
  subst hd hv
  cases prevOk <;> cases flag <;>
    by_cases hb : 4 * popVar ((diffs a).dropLast) < ((diffs a).getLast?.getD 0) ^ 2 <;>
    by_cases hs : popVar ((diffs a).dropLast) < ((diffs a).getLast?.getD 0) ^ 2 <;>
    simp [validate1, hb, hs]

/-- Witness for C3 at the concrete window `[0, 0, 5]` (differences `[0, 5]`,
newest difference `5`, masked variance `0`), previous sample accepted and no
pending flag: the outlier is accepted and the flag is set. -/
theorem validate1_table_witness :
    validate1 [0, 0, 5] true false = (true, true) := by
  have hd : (5 : ℚ) = (diffs [0, 0, 5]).getLastD 0 := by
    simp [diffs]
  have hv : (0 : ℚ) = popVar ((diffs [0, 0, 5]).dropLast) := by
    simp [diffs, popVar, listMean]
  exact (validate1_table [0, 0, 5] true false (by decide) 5 0 hd hv).1.2.1 rfl
    (by norm_num) rfl

/-- Initial value of the static classification array in the three-channel
`cv::validate`: all three channels accepted. -/
def validateResultInit : List Bool := [true, true, true]

/-- Embedding of the three-channel `cv::validate` (opencv.cpp, lines 50-65).
The persistent state is the stored (static) classification array and the
per-channel pending flags; the result triple is (classification array
returned to the caller, updated stored array, updated pending flags).
A window of fewer than 10 rows returns the stored array immediately, without
inspecting the data; otherwise each of the `cols` channels is classified by
the single-channel validator on its column slice. -/
def validate3 (a : List (List ℚ)) (b : List (List Bool)) (cols : ℕ)
    (stored flags : List Bool) : List Bool × List Bool × List Bool :=
  if a.length < 10 then (stored, stored, flags)
  else
    let res := (List.range cols).map fun i =>
      validate1 (a.map fun r => r.getD i 0)
        ((b.map fun r => r.getD i true).getLastD true)
        (flags.getD i false)
    (res.map Prod.fst, res.map Prod.fst, res.map Prod.snd)

/-- A sequence of three-channel validator calls threaded through the
persistent (stored array, pending flags) state; each call is a pair of
signal and classification matrices together with the channel count. -/
def validate3Run (calls : List (List (List ℚ) × List (List Bool) × ℕ))
    (stored flags : List Bool) : List Bool × List Bool :=
  calls.foldl
    (fun st c =>
      let r := validate3 c.1 c.2.1 c.2.2 st.1 st.2
      (r.2.1, r.2.2))
    (stored, flags)

/-- Claim C10: a three-channel validator call on matrices with fewer than 10
rows reports the stored classification array and leaves both the stored array
and every channel's pending flag unchanged; consequently, after any sequence
of such short-window calls starting from the initial state, the stored array
is still the initial all-accept array and the flags are untouched. -/
theorem validate3_small (a : List (List ℚ)) (b : List (List Bool)) (cols : ℕ)
    (stored flags : List Bool)
    (calls : List (List (List ℚ) × List (List Bool) × ℕ)) (flags0 : List Bool)
    (h : a.length < 10) (hc : ∀ c ∈ calls, c.1.length < 10) :
    validate3 a b cols stored flags = (stored, stored, flags) ∧
    validate3Run calls validateResultInit flags0 = (validateResultInit, flags0) := by
  constructor
  · simp [validate3, h]
  · have key : ∀ (cs : List (List (List ℚ) × List (List Bool) × ℕ))
        (s f : List Bool), (∀ c ∈ cs, c.1.length < 10) →
        validate3Run cs s f = (s, f) := by
      intro cs
      induction cs with
      | nil => intro s f _; rfl
      | cons c cs ih =>
          intro s f hall
          have hc1 : c.1.length < 10 := hall c (by simp)
          have hstep : validate3 c.1 c.2.1 c.2.2 s f = (s, s, f) := by
            simp [validate3, hc1]
          simp only [validate3Run, List.foldl_cons, hstep]
          exact ih s f fun x hx => hall x (by simp [hx])
    exact key calls validateResultInit flags0 hc

/-- Witness for C10: a single 2-row call and an empty call sequence. -/
theorem validate3_small_witness :
    validate3 [[1, 2, 3], [4, 5, 6]] [[true, true, true]] 3
        [true, false, true] [false, true, false] =
      ([true, false, true], [true, false, true], [false, true, false]) ∧
    validate3Run [] validateResultInit [false, false, false] =
      (validateResultInit, [false, false, false]) :=
  validate3_small [[1, 2, 3], [4, 5, 6]] [[true, true, true]] 3
    [true, false, true] [false, true, false] [] [false, false, false]
    (by decide) (by simp)

/-- Row-wise first differences of a multi-channel window (row-major list of
rows), as computed by `subtract(a.rowRange(1, rows), a.rowRange(0, rows-1))`
in `cv::denoise`: entry `k` is the channel-wise difference `a[k+1] - a[k]`. -/
def diffsM (a : List (List ℚ)) : List (List ℚ) :=
  List.zipWith (List.zipWith fun x y => x - y) a.tail a

/-- Embedding of `cv::denoise` (opencv.cpp, lines 246-271).  The jump flags
are first aligned to the window by keeping their last `a.rows` entries; the
first differences are taken once, from the original window; then, scanning
the flags in order, each flagged position `i` subtracts the difference row
`diff[i-1]` from every row at index `>= i`.  The result is `none` exactly
when a flagged position forces the out-of-bounds read `diff.at(i-1)` with
`i = 0`. -/
def denoiseStep (diff : List (List ℚ)) (jumps : List Bool)
    (acc : Option (List (List ℚ))) (i : ℕ) : Option (List (List ℚ)) :=
  acc.bind fun cur =>
    if jumps.getD i false then
      if i = 0 then none
      else
        match diff[i - 1]? with
        | none => none
        | some dRow => some (cur.mapIdx fun k row =>
            if i ≤ k then List.zipWith (fun x y => x - y) row dRow else row)
    else some cur

def denoise (a : List (List ℚ)) (jumps0 : List Bool) : Option (List (List ℚ)) :=
  let jumps := jumps0.drop (jumps0.length - a.length)
  (List.range jumps.length).foldl (denoiseStep (diffsM a) jumps) (some a)

theorem denoiseStep_not_flagged (diff : List (List ℚ)) (js : List Bool)
    (acc : Option (List (List ℚ))) (i : ℕ) (h : js[i]?.getD false = false) :
    denoiseStep diff js acc i = acc := by
  cases acc <;> simp [denoiseStep, List.getD_eq_getElem?_getD, h]

theorem denoise_foldl_skip (diff : List (List ℚ)) (js : List Bool) (l : List ℕ)
    (acc : Option (List (List ℚ))) (h : ∀ j ∈ l, js[j]?.getD false = false) :
    l.foldl (denoiseStep diff js) acc = acc := by
  induction l generalizing acc with
  | nil => rfl
  | cons j l ih =>
      rw [List.foldl_cons, denoiseStep_not_flagged diff js acc j (h j (by simp))]
      exact ih acc fun x hx => h x (by simp [hx])

theorem denoise_eq_foldl (a : List (List ℚ)) (js : List Bool)
    (h : js.length = a.length) :
    denoise a js = (List.range js.length).foldl (denoiseStep (diffsM a) js) (some a) := by
  simp [denoise, h]

theorem denoise_single_eq (a : List (List ℚ)) (i : ℕ) (hi : 0 < i)
    (hin : i < a.length) :
    denoise a ((List.replicate a.length false).set i true) =
      some (a.mapIdx fun k row =>
        if i ≤ k then
          List.zipWith (fun x y => x - y) row
            (List.zipWith (fun x y => x - y) (a.getD i []) (a.getD (i - 1) []))
        else row) := by
  set js := (List.replicate a.length false).set i true with hjsdef
  have hjsl : js.length = a.length := by simp [hjsdef]
  have hflag : ∀ j, j ≠ i → js[j]?.getD false = false := by
    intro j hj
    rw [hjsdef, List.getElem?_set_ne (fun h => hj h.symm), List.getElem?_replicate]
    split <;> rfl
  have hflagi : js[i]?.getD false = true := by
    rw [hjsdef, List.getElem?_set_self (by simpa using hin)]
    rfl
  have hgi : a.getD i [] = a[i] := by
    rw [List.getD_eq_getElem?_getD, List.getElem?_eq_getElem hin]; rfl
  have hin' : i - 1 < a.length := by omega
  have hgi' : a.getD (i - 1) [] = a[i - 1] := by
    rw [List.getD_eq_getElem?_getD, List.getElem?_eq_getElem hin']; rfl
  have hdiffget : (diffsM a)[i - 1]? =
      some (List.zipWith (fun x y => x - y) (a.getD i []) (a.getD (i - 1) [])) := by
    rw [diffsM, List.getElem?_zipWith, List.getElem?_tail]
    have h1 : i - 1 + 1 = i := by omega
    rw [h1, List.getElem?_eq_getElem hin, List.getElem?_eq_getElem hin', hgi, hgi']
  have hstep : denoiseStep (diffsM a) js (some a) i =
      some (a.mapIdx fun k row =>
        if i ≤ k then
          List.zipWith (fun x y => x - y) row
            (List.zipWith (fun x y => x - y) (a.getD i []) (a.getD (i - 1) []))
        else row) := by
    have hi0 : i ≠ 0 := by omega
    simp [denoiseStep, List.getD_eq_getElem?_getD, hflagi, hi0, hdiffget]
  have hsum : (i + 1) + (a.length - (i + 1)) = a.length := by omega
  have hsplit : List.range a.length =
      (List.range i ++ [i]) ++
        List.map (fun x => (i + 1) + x) (List.range (a.length - (i + 1))) := by
    calc List.range a.length
        = List.range ((i + 1) + (a.length - (i + 1))) := by rw [hsum]
      _ = List.range (i + 1) ++
            List.map (fun x => (i + 1) + x) (List.range (a.length - (i + 1))) :=
          List.range_add _ _
      _ = (List.range i ++ [i]) ++
            List.map (fun x => (i + 1) + x) (List.range (a.length - (i + 1))) := by
          rw [List.range_succ]
  rw [denoise_eq_foldl a js hjsl, hjsl, hsplit, List.foldl_append, List.foldl_append]
  rw [denoise_foldl_skip (diffsM a) js (List.range i) (some a) fun j hj =>
    hflag j (by have := List.mem_range.mp hj; omega)]
  simp only [List.foldl_cons, List.foldl_nil]
  rw [hstep]
  exact denoise_foldl_skip (diffsM a) js _ _ fun j hj => by
    obtain ⟨x, _, rfl⟩ := List.mem_map.mp hj
    exact hflag _ (by omega)

/-- Claim C4: for a window holding exactly one resync-flagged position
`i > 0`, the denoiser leaves every row before `i` untouched and subtracts the
step `a[i] - a[i-1]` as a constant offset, independently per channel, from
every row at index at least `i`. -/
theorem denoise_single_jump (a : List (List ℚ)) (c i : ℕ) (js : List Bool)
    (hrect : ∀ r ∈ a, r.length = c) (hi : 0 < i) (hin : i < a.length)
    (hjs : js = (List.replicate a.length false).set i true) :
    ∃ b, denoise a js = some b ∧ b.length = a.length ∧
      (∀ k, k < i → b.getD k [] = a.getD k []) ∧
      (∀ k j, i ≤ k → k < a.length → j < c →
        (b.getD k []).getD j 0 =
          (a.getD k []).getD j 0 -
            ((a.getD i []).getD j 0 - (a.getD (i - 1) []).getD j 0)) := by
  subst hjs
  have rowIdx : ∀ (l : List (List ℚ)) (f : ℕ → List ℚ → List ℚ) (k : ℕ),
      k < l.length → (l.mapIdx f).getD k [] = f k (l.getD k []) := by
    intro l f k hk
    rw [List.getD_eq_getElem?_getD (l.mapIdx f),
      List.getElem?_eq_getElem (by simpa using hk),
      List.getD_eq_getElem?_getD l, List.getElem?_eq_getElem hk]
    simp [List.getElem_mapIdx]
  have rowGet : ∀ (r : List ℚ) (j : ℕ) (hj : j < r.length), r.getD j 0 = r[j] := by
    intro r j hj
    rw [List.getD_eq_getElem?_getD, List.getElem?_eq_getElem hj]; rfl
  have entryGet : ∀ (k : ℕ) (hk : k < a.length), a.getD k [] = a[k] := by
    intro k hk
    rw [List.getD_eq_getElem?_getD, List.getElem?_eq_getElem hk]; rfl
  refine ⟨_, denoise_single_eq a i hi hin, ?_, ?_, ?_⟩
  · simp
  · intro k hk
    have hkn : k < a.length := by omega
    rw [rowIdx a _ k hkn, if_neg (by omega)]
  · intro k j hik hkn hj
    have hin' : i - 1 < a.length := by omega
    rw [rowIdx a _ k hkn, if_pos hik, entryGet k hkn, entryGet i hin, entryGet (i - 1) hin']
    have hlk : (a[k]).length = c := hrect _ (List.getElem_mem hkn)
    have hli : (a[i]).length = c := hrect _ (List.getElem_mem hin)
    have hli' : (a[i - 1]).length = c := hrect _ (List.getElem_mem hin')
    have hjk : j < (List.zipWith (fun x y : ℚ => x - y) (a[k])
        (List.zipWith (fun x y : ℚ => x - y) (a[i]) (a[i - 1]))).length := by
      simp [List.length_zipWith, hlk, hli, hli', hj]
    rw [rowGet _ j hjk, rowGet _ j (hlk ▸ hj), rowGet _ j (hli ▸ hj),
      rowGet _ j (hli' ▸ hj)]
    simp [List.getElem_zipWith]

/-- Witness for C4 at the concrete single-channel window `[[1], [2], [10]]`
with the resync jump flagged at position 2. -/
theorem denoise_single_jump_witness :
    ∃ b, denoise [[(1 : ℚ)], [2], [10]] [false, false, true] = some b ∧
      b.length = ([[(1 : ℚ)], [2], [10]] : List (List ℚ)).length ∧
      (∀ k, k < 2 → b.getD k [] = ([[(1 : ℚ)], [2], [10]] : List (List ℚ)).getD k []) ∧
      (∀ k j, 2 ≤ k → k < ([[(1 : ℚ)], [2], [10]] : List (List ℚ)).length → j < 1 →
        (b.getD k []).getD j 0 =
          (([[(1 : ℚ)], [2], [10]] : List (List ℚ)).getD k []).getD j 0 -
            ((([[(1 : ℚ)], [2], [10]] : List (List ℚ)).getD 2 []).getD j 0 -
              (([[(1 : ℚ)], [2], [10]] : List (List ℚ)).getD (2 - 1) []).getD j 0)) :=
  denoise_single_jump [[(1 : ℚ)], [2], [10]] 1 2 [false, false, true]
    (by intro r hr; fin_cases hr <;> rfl) (by norm_num) (by norm_num) (by rfl)

/-- Claim C9 (counterexample): a resync jump flagged at window position 0
drives the denoiser into the out-of-bounds read `diff.at(-1)`: the embedding
returns `none` on the two-row window `[[0], [1]]` with flags
`[true, false]`. -/
theorem denoise_oob_counterexample :
    denoise [[(0 : ℚ)], [1]] [true, false] = none := rfl

/-- Claim C9 (amended): every array access of the denoiser is in bounds
(the `none` branch of the embedding is unreachable) provided no resync jump
is flagged at window position 0; a jump flagged at index 0 reads the
first-difference array at index -1 and is out of bounds. -/
theorem denoise_isSome_amended (a : List (List ℚ)) (js : List Bool)
    (hlen : js.length = a.length) (h0 : js[0]?.getD false = false) :
    (denoise a js).isSome = true := by
  rw [denoise_eq_foldl a js hlen]
  have key : ∀ (l : List ℕ) (acc : Option (List (List ℚ))),
      (∀ j ∈ l, j < a.length) → acc.isSome = true →
      (l.foldl (denoiseStep (diffsM a) js) acc).isSome = true := by
    intro l
    induction l with
    | nil => intro acc _ h; exact h
    | cons x l ih =>
        intro acc hmem hacc
        rw [List.foldl_cons]
        refine ih _ (fun j hj => hmem j (by simp [hj])) ?_
        obtain ⟨cur, rfl⟩ := Option.isSome_iff_exists.mp hacc
        by_cases hf : js[x]?.getD false = true
        · have hx0 : x ≠ 0 := by
            intro h
            rw [h, h0] at hf
            exact Bool.false_ne_true hf
          have hxlen : x < a.length := hmem x (by simp)
          have hdlen : x - 1 < (diffsM a).length := by
            simp only [diffsM, List.length_zipWith, List.length_tail]
            omega
          have hget : (diffsM a)[x - 1]? = some ((diffsM a)[x - 1]) :=
            List.getElem?_eq_getElem hdlen
          simp [denoiseStep, List.getD_eq_getElem?_getD, hf, hx0, hget]
        · have hf' : js[x]?.getD false = false := by
            cases hb : js[x]?.getD false
            · rfl
            · exact absurd hb hf
          rw [denoiseStep_not_flagged _ _ _ _ hf']
          rfl
  refine key _ _ (fun j hj => ?_) rfl
  rw [← hlen]
  exact List.mem_range.mp hj

/-- Witness for the amended C9 theorem: the denoiser succeeds on the window
`[[1], [2]]` whose only flagged jump is at position 1. -/
theorem denoise_isSome_amended_witness :
    (denoise [[(1 : ℚ)], [2]] [false, true]).isSome = true :=
  denoise_isSome_amended [[(1 : ℚ)], [2]] [false, true] (by rfl) (by rfl)

/-- Embedding of the reporting step of `RPPGSimple::estimateHeartrate`
(RPPGSimple.cpp, lines 317-339): the accumulated per-frame BPM estimates are
sorted; the emitted report is (mean over the sorted column, its first entry,
its last entry). -/
def bpmReport (bpms : List ℚ) : ℚ × ℚ × ℚ :=
  let sorted := bpms.mergeSort fun x y => x ≤ y
  (sorted.sum / (sorted.length : ℚ), sorted.headD 0, sorted.getLastD 0)

theorem headD_le_of_sorted (l : List ℚ) (hs : List.Sorted (· ≤ ·) l) :
    ∀ x ∈ l, l.headD 0 ≤ x := by
  cases l with
  | nil => intro x hx; cases hx
  | cons a t =>
      intro x hx
      rcases List.mem_cons.mp hx with rfl | hxt
      · simp
      · simpa using (List.pairwise_cons.mp hs).1 x hxt

theorem le_getLastD_of_sorted (l : List ℚ) (hs : List.Sorted (· ≤ ·) l) :
    ∀ x ∈ l, x ≤ l.getLastD 0 := by
  induction l with
  | nil => intro x hx; cases hx
  | cons a t ih =>
      intro x hx
      cases t with
      | nil =>
          rcases List.mem_cons.mp hx with rfl | h
          · simp [List.getLastD_cons]
          · cases h
      | cons b t2 =>
          have heq : (a :: b :: t2).getLastD 0 = (b :: t2).getLastD 0 := by
            simp [List.getLastD_cons]
          have hlast : (b :: t2).getLastD 0 = (b :: t2).getLast (by simp) := by
            rw [List.getLastD_eq_getLast?, List.getLast?_eq_getLast _ (by simp)]
            rfl
          rcases List.mem_cons.mp hx with rfl | hxt
          · have hmem : (b :: t2).getLastD 0 ∈ b :: t2 := by
              rw [hlast]; exact List.getLast_mem _
            rw [heq]
            exact (List.pairwise_cons.mp hs).1 _ hmem
          · rw [heq]
            exact ih (List.pairwise_cons.mp hs).2 x hxt

theorem headD_mem_of_ne_nil (l : List ℚ) (hne : l ≠ []) : l.headD 0 ∈ l := by
  cases l with
  | nil => cases hne rfl
  | cons a t => simp

theorem getLastD_mem_of_ne_nil (l : List ℚ) (hne : l ≠ []) : l.getLastD 0 ∈ l := by
  rw [List.getLastD_eq_getLast?, List.getLast?_eq_getLast _ hne]
  exact List.getLast_mem _

/-- Claim C6: at a reporting boundary the emitted report's mean is the
arithmetic average of all accumulated per-frame BPM estimates, its min is
their smallest value, its max their largest, and min ≤ mean ≤ max. -/
theorem bpmReport_spec (bpms : List ℚ) (hne : bpms ≠ []) :
    (bpmReport bpms).1 = bpms.sum / (bpms.length : ℚ) ∧
    ((bpmReport bpms).2.1 ∈ bpms ∧ ∀ x ∈ bpms, (bpmReport bpms).2.1 ≤ x) ∧
    ((bpmReport bpms).2.2 ∈ bpms ∧ ∀ x ∈ bpms, x ≤ (bpmReport bpms).2.2) ∧
    (bpmReport bpms).2.1 ≤ (bpmReport bpms).1 ∧
    (bpmReport bpms).1 ≤ (bpmReport bpms).2.2 := by
  have hperm : (bpms.mergeSort fun x y => x ≤ y).Perm bpms :=
    List.mergeSort_perm bpms _
  have hsort : List.Sorted (· ≤ ·) (bpms.mergeSort fun x y => x ≤ y) :=
    List.sorted_mergeSort' bpms
  have hsum : (bpms.mergeSort fun x y => x ≤ y).sum = bpms.sum := hperm.sum_eq
  have hlen : (bpms.mergeSort fun x y => x ≤ y).length = bpms.length :=
    hperm.length_eq
  have hsne : (bpms.mergeSort fun x y => x ≤ y) ≠ [] := by
    intro h
    apply hne
    have := hperm.length_eq
    rw [h] at this
    exact List.length_eq_zero.mp this.symm
  have hlenpos : (0 : ℚ) < (bpms.length : ℚ) := by
    have : 0 < bpms.length := List.length_pos.mpr hne
    exact_mod_cast this
  have hmean : (bpmReport bpms).1 = bpms.sum / (bpms.length : ℚ) := by
    simp only [bpmReport, hsum, hlen]
  have hminmem : (bpmReport bpms).2.1 ∈ bpms :=
    hperm.mem_iff.mp (headD_mem_of_ne_nil _ hsne)
  have hminle : ∀ x ∈ bpms, (bpmReport bpms).2.1 ≤ x := fun x hx =>
    headD_le_of_sorted _ hsort x (hperm.mem_iff.mpr hx)
  have hmaxmem : (bpmReport bpms).2.2 ∈ bpms :=
    hperm.mem_iff.mp (getLastD_mem_of_ne_nil _ hsne)
  have hmaxge : ∀ x ∈ bpms, x ≤ (bpmReport bpms).2.2 := fun x hx =>
    le_getLastD_of_sorted _ hsort x (hperm.mem_iff.mpr hx)
  refine ⟨hmean, ⟨hminmem, hminle⟩, ⟨hmaxmem, hmaxge⟩, ?_, ?_⟩
  · rw [hmean, le_div_iff₀ hlenpos]
    have hsmul : bpms.length • (bpmReport bpms).2.1 ≤ bpms.sum :=
      List.card_nsmul_le_sum bpms _ hminle
    rw [nsmul_eq_mul] at hsmul
    linarith [hsmul]
  · rw [hmean, div_le_iff₀ hlenpos]
    have hsmul : bpms.sum ≤ bpms.length • (bpmReport bpms).2.2 :=
      List.sum_le_card_nsmul bpms _ hmaxge
    rw [nsmul_eq_mul] at hsmul
    linarith [hsmul]

/-- Witness for C6 at the accumulated estimates `[58, 60, 62]`: the sampling
window of the spec example, whose report is mean 60, min 58, max 62. -/
theorem bpmReport_spec_witness :
    (bpmReport [58, 60, 62]).1 = ([58, 60, 62] : List ℚ).sum / 3 ∧
    (bpmReport [58, 60, 62]).2.1 ∈ ([58, 60, 62] : List ℚ) ∧
    (bpmReport [58, 60, 62]).2.1 ≤ (bpmReport [58, 60, 62]).1 ∧
    (bpmReport [58, 60, 62]).1 ≤ (bpmReport [58, 60, 62]).2.2 := by
  have h := bpmReport_spec [58, 60, 62] (by simp)
  exact ⟨h.1, h.2.1.1, h.2.2.2.1, h.2.2.2.2⟩

/-- Truncation toward zero of a rational: the semantics of the C++ cast from
`double` to `int` applied to the band bounds in
`RPPGSimple::estimateHeartrate`. -/
def truncQ (q : ℚ) : ℤ := if q < 0 then ⌈q⌉ else ⌊q⌋

/-- Lower band index of the peak search:
`(int)(total * LOW_BPM / SEC_PER_MIN / fps)` with `total * 42 / 60` computed
in C++ integer arithmetic before the double division by `fps`. -/
def lowBin (total : ℕ) (fps : ℚ) : ℤ :=
  truncQ (((total * 42 / 60 : ℕ) : ℚ) / fps)

/-- Upper band index of the peak search:
`(int)(total * HIGH_BPM / SEC_PER_MIN / fps)` with `total * 240 / 60`
computed in C++ integer arithmetic before the double division by `fps`. -/
def highBin (total : ℕ) (fps : ℚ) : ℤ :=
  truncQ (((total * 240 / 60 : ℕ) : ℚ) / fps)

/-- The lower band bound clamped as in the code: `min(low, total)`. -/
def lowBinN (total : ℕ) (fps : ℚ) : ℕ := min (lowBin total fps).toNat total

/-- The upper band bound clamped as in the code: `min(high, total)`. -/
def highBinN (total : ℕ) (fps : ℚ) : ℕ := min (highBin total fps).toNat total

/-- One update of `cv::minMaxLoc`'s running maximum: a later bin replaces the
current best only on a strictly larger magnitude, so the first maximal bin is
kept. -/
def argmaxStep (xs : List ℚ) (acc : Option ℕ) (i : ℕ) : Option ℕ :=
  match acc with
  | none => some i
  | some j => if xs.getD j 0 < xs.getD i 0 then some i else acc

/-- Index of the first maximal entry of `xs` among indices in `[lo, hi)`,
the behaviour of `cv::minMaxLoc` under the band mask
`bandMask.rowRange(lo, hi).setTo(ONE)`. -/
def argmaxFirst (xs : List ℚ) (lo hi : ℕ) : Option ℕ :=
  ((List.range xs.length).filter fun i => decide (lo ≤ i ∧ i < hi)).foldl
    (argmaxStep xs) none

/-- Embedding of the peak search of `RPPGSimple::estimateHeartrate`
(RPPGSimple.cpp, lines 272-295): band bounds from integer arithmetic, mask
over rows `[min(low, total), min(high, total))`, first maximal bin, and
`bpm = peakBin * fps / total * 60`. -/
def estimateBpm (spectrum : List ℚ) (fps : ℚ) : Option ℚ :=
  match argmaxFirst spectrum (lowBinN spectrum.length fps)
      (highBinN spectrum.length fps) with
  | none => none
  | some i => some ((i : ℚ) * fps / (spectrum.length : ℚ) * 60)

/-- The peak search as worded by the spec sentence of claim C1:
`low = ⌊n * 42 / 60 / fps⌋` and `high = ⌊n * 240 / 60 / fps⌋` with exact real
division throughout, both clamped into `[0, n)`, and the band running from
bin `low` to bin `high` inclusive. -/
def specLowBin (total : ℕ) (fps : ℚ) : ℕ :=
  min (⌊(total : ℚ) * 42 / 60 / fps⌋).toNat (total - 1)

def specHighBin (total : ℕ) (fps : ℚ) : ℕ :=
  min (⌊(total : ℚ) * 240 / 60 / fps⌋).toNat (total - 1)

def estimateBpmSpec (spectrum : List ℚ) (fps : ℚ) : Option ℚ :=
  match argmaxFirst spectrum (specLowBin spectrum.length fps)
      (specHighBin spectrum.length fps + 1) with
  | none => none
  | some i => some ((i : ℚ) * fps / (spectrum.length : ℚ) * 60)

/-- Claim C1 (counterexample): on the 10-bin spectrum
`[0, 1, 1, 1, 1, 1, 9, 0, 0, 0]` at `fps = 6`, the claimed band is bins 1
through `high = ⌊10 * 240 / 60 / 6⌋ = 6` and selects the unique maximum 9 at
bin 6 (BPM 216); the code's band mask covers rows `[1, 6)` only, excluding
bin 6, so the code reports BPM 36.  The divergence is independent of any
tie-breaking convention, since every alternative bin of the code band yields
a BPM below 216 as well. -/
theorem estimateBpm_claim_counterexample :
    estimateBpm [0, 1, 1, 1, 1, 1, 9, 0, 0, 0] 6 = some 36 ∧
    estimateBpmSpec [0, 1, 1, 1, 1, 1, 9, 0, 0, 0] 6 = some 216 ∧
    some (36 : ℚ) ≠ some (216 : ℚ) := by
  have hlen : ([0, 1, 1, 1, 1, 1, 9, 0, 0, 0] : List ℚ).length = 10 := by decide
  refine ⟨?_, ?_, by norm_num⟩
  · have hlo : lowBinN 10 6 = 1 := by
      have h1 : lowBin 10 6 = 1 := by norm_num [lowBin, truncQ]
      simp only [lowBinN, h1]
      rfl
    have hhi : highBinN 10 6 = 6 := by
      have h1 : highBin 10 6 = 6 := by norm_num [highBin, truncQ]
      simp only [highBinN, h1]
      rfl
    have harg : argmaxFirst [0, 1, 1, 1, 1, 1, 9, 0, 0, 0] 1 6 = some 1 := by decide
    simp only [estimateBpm, hlen, hlo, hhi, harg]
    norm_num
  · have hlo : specLowBin 10 6 = 1 := by
      have h1 : (⌊(10 : ℚ) * 42 / 60 / 6⌋ : ℤ) = 1 := by norm_num
      simp only [specLowBin, Nat.cast_ofNat, h1]
      rfl
    have hhi : specHighBin 10 6 = 6 := by
      have h1 : (⌊(10 : ℚ) * 240 / 60 / 6⌋ : ℤ) = 6 := by norm_num
      simp only [specHighBin, Nat.cast_ofNat, h1]
      rfl
    have harg : argmaxFirst [0, 1, 1, 1, 1, 1, 9, 0, 0, 0] 1 7 = some 6 := by decide
    simp only [estimateBpmSpec, hlen, hlo, hhi, harg]
    norm_num

theorem argmax_fold_some (xs : List ℚ) :
    ∀ (l : List ℕ) (b : ℕ), ∃ r, l.foldl (argmaxStep xs) (some b) = some r ∧
      (r = b ∨ r ∈ l) ∧ xs.getD b 0 ≤ xs.getD r 0 ∧
      ∀ j ∈ l, xs.getD j 0 ≤ xs.getD r 0 := by
  intro l
  induction l with
  | nil => exact fun b => ⟨b, rfl, Or.inl rfl, le_refl _, by simp⟩
  | cons x l ih =>
      intro b
      rw [List.foldl_cons]
      by_cases hc : xs.getD b 0 < xs.getD x 0
      · have hstep : argmaxStep xs (some b) x = some x := by
          simp only [argmaxStep]
          rw [if_pos hc]
        rw [hstep]
        obtain ⟨r, hf, hmem, hle, hall⟩ := ih x
        refine ⟨r, hf, ?_, le_trans hc.le hle, ?_⟩
        · rcases hmem with rfl | h
          · exact Or.inr (by simp)
          · exact Or.inr (by simp [h])
        · intro j hj
          rcases List.mem_cons.mp hj with rfl | hjl
          · exact hle
          · exact hall j hjl
      · have hstep : argmaxStep xs (some b) x = some b := by
          simp only [argmaxStep]
          rw [if_neg hc]
        rw [hstep]
        obtain ⟨r, hf, hmem, hle, hall⟩ := ih b
        refine ⟨r, hf, ?_, hle, ?_⟩
        · rcases hmem with rfl | h
          · exact Or.inl rfl
          · exact Or.inr (by simp [h])
        · intro j hj
          rcases List.mem_cons.mp hj with rfl | hjl
          · exact le_trans (not_lt.mp hc) hle
          · exact hall j hjl

/-- Claim C1 (amended): the peak search restricts to the band of bins
`[low, high)` where `low = ⌊(n * 42 div 60) / fps⌋` and
`high = ⌊(n * 240 div 60) / fps⌋` are computed with C++ integer division by
60 before the floating division by fps, each then clamped above by `n`
(`min(low, n)`, `min(high, n)`), with the upper bin exclusive; whenever that
band is nonempty it returns `bpm = peakBin * fps / n * 60` for a bin
`peakBin` of maximal magnitude within the band. -/
theorem estimateBpm_amended (s : List ℚ) (fps : ℚ)
    (hband : lowBinN s.length fps < highBinN s.length fps) :
    ∃ i : ℕ, estimateBpm s fps = some ((i : ℚ) * fps / (s.length : ℚ) * 60) ∧
      lowBinN s.length fps ≤ i ∧ i < highBinN s.length fps ∧
      ∀ j, lowBinN s.length fps ≤ j → j < highBinN s.length fps →
        s.getD j 0 ≤ s.getD i 0 := by
  have hhin : highBinN s.length fps ≤ s.length := min_le_right _ _
  have hmeml : ∀ j, j ∈ ((List.range s.length).filter fun i =>
      decide (lowBinN s.length fps ≤ i ∧ i < highBinN s.length fps)) ↔
      (lowBinN s.length fps ≤ j ∧ j < highBinN s.length fps) := by
    intro j
    rw [List.mem_filter, List.mem_range]
    constructor
    · intro ⟨_, hp⟩
      exact of_decide_eq_true hp
    · intro hp
      exact ⟨by omega, decide_eq_true hp⟩
  have hlomem : lowBinN s.length fps ∈ ((List.range s.length).filter fun i =>
      decide (lowBinN s.length fps ≤ i ∧ i < highBinN s.length fps)) :=
    (hmeml _).mpr ⟨le_refl _, hband⟩
  obtain ⟨x, rest, hxr⟩ :=
    List.exists_cons_of_ne_nil (List.ne_nil_of_mem hlomem)
  have hxmem : x ∈ ((List.range s.length).filter fun i =>
      decide (lowBinN s.length fps ≤ i ∧ i < highBinN s.length fps)) := by
    rw [hxr]; simp
  obtain ⟨r, hf, hmem, hxle, hall⟩ := argmax_fold_some s rest x
  have hargeq : argmaxFirst s (lowBinN s.length fps) (highBinN s.length fps) =
      some r := by
    rw [argmaxFirst, hxr, List.foldl_cons]
    have h0 : argmaxStep s none x = some x := rfl
    rw [h0, hf]
  have hrmem : r ∈ ((List.range s.length).filter fun i =>
      decide (lowBinN s.length fps ≤ i ∧ i < highBinN s.length fps)) := by
    rcases hmem with rfl | h
    · exact hxmem
    · rw [hxr]; simp [h]
  have hrband := (hmeml r).mp hrmem
  refine ⟨r, ?_, hrband.1, hrband.2, ?_⟩
  · simp only [estimateBpm, hargeq]
  · intro j hj1 hj2
    have hjmem := (hmeml j).mpr ⟨hj1, hj2⟩
    rw [hxr] at hjmem
    rcases List.mem_cons.mp hjmem with rfl | hjl
    · exact hxle
    · exact hall j hjl

/-- Witness for the amended C1 theorem on the concrete spectrum
`[0, 1, 1, 1, 1, 1, 9, 0, 0, 0]` at `fps = 6`. -/
theorem estimateBpm_amended_witness :
    ∃ i : ℕ, estimateBpm [0, 1, 1, 1, 1, 1, 9, 0, 0, 0] 6 =
        some ((i : ℚ) * 6 / (([0, 1, 1, 1, 1, 1, 9, 0, 0, 0] : List ℚ).length : ℚ) * 60) ∧
      lowBinN ([0, 1, 1, 1, 1, 1, 9, 0, 0, 0] : List ℚ).length 6 ≤ i ∧
      i < highBinN ([0, 1, 1, 1, 1, 1, 9, 0, 0, 0] : List ℚ).length 6 ∧
      ∀ j, lowBinN ([0, 1, 1, 1, 1, 1, 9, 0, 0, 0] : List ℚ).length 6 ≤ j →
        j < highBinN ([0, 1, 1, 1, 1, 1, 9, 0, 0, 0] : List ℚ).length 6 →
        ([0, 1, 1, 1, 1, 1, 9, 0, 0, 0] : List ℚ).getD j 0 ≤
          ([0, 1, 1, 1, 1, 1, 9, 0, 0, 0] : List ℚ).getD i 0 := by
  refine estimateBpm_amended [0, 1, 1, 1, 1, 1, 9, 0, 0, 0] 6 ?_
  have hlen : ([0, 1, 1, 1, 1, 1, 9, 0, 0, 0] : List ℚ).length = 10 := by decide
  rw [hlen]
  have hlo : lowBin 10 6 = 1 := by norm_num [lowBin, truncQ]
  have hhi : highBin 10 6 = 6 := by norm_num [highBin, truncQ]
  simp only [lowBinN, highBinN, hlo, hhi]
  decide

/-- The eviction loop of `RPPGSimple::processFrame` (lines 106-111): while
the green-channel buffer holds more rows than `fps * SIGNAL_SIZE`, the oldest
entry of each of the three parallel buffers is removed by `cv::push`, which
shifts rows `1..n-1` up and pops the last row — that is, takes the tail.
The loop is run with fuel `g.length`, enough for every reachable state. -/
def evictLoop (fuel : ℕ) (g : List ℚ) (t : List ℤ) (j : List Bool) (cap : ℚ) :
    List ℚ × List ℤ × List Bool :=
  match fuel with
  | 0 => (g, t, j)
  | fuel + 1 =>
      if (g.length : ℚ) > cap then evictLoop fuel g.tail t.tail j.tail cap
      else (g, t, j)

/-- Embedding of the buffer-maintenance step of `RPPGSimple::processFrame`
(RPPGSimple.cpp, lines 102-121): measure `fps` from the timestamp buffer,
evict from the front while `g.rows > fps * 10`, then append the new sample,
jump flag, and timestamp. -/
def processStep (g : List ℚ) (t : List ℤ) (j : List Bool) (timeBase : ℚ)
    (v : ℚ) (time : ℤ) (flag : Bool) : List ℚ × List ℤ × List Bool :=
  let fps := getFps t timeBase
  let e := evictLoop g.length g t j (fps * 10)
  (e.1 ++ [v], e.2.1 ++ [time], e.2.2 ++ [flag])

/-- Claim C7 (counterexample): with buffers of two samples spanning exactly
10 seconds (`t = [0, 10]`, `timeBase = 1`, so `fps = 1/5` and
`fps * 10 = 2` exactly), no eviction happens and the append leaves 3 entries,
exceeding the claimed bound `⌈fps * 10⌉ = 2`. -/
theorem processStep_claim_counterexample :
    (processStep [0, 0] [0, 10] [false, false] 1 5 20 false).1.length = 3 ∧
    (⌈getFps [0, 10] 1 * 10⌉ : ℤ) = 2 := by
  have hfps : getFps [0, 10] 1 = 1 / 5 := by
    rw [getFps_eq]
    simp [elapsedTime]
    norm_num
  have hcap : getFps [0, 10] 1 * 10 = 2 := by rw [hfps]; norm_num
  constructor
  · have hloop : evictLoop 2 [0, 0] [0, 10] [false, false] 2 =
        ([0, 0], [0, 10], [false, false]) := by
      norm_num [evictLoop]
    simp only [processStep, hcap]
    norm_num [hloop]
  · rw [hcap]
    norm_num

theorem evictLoop_suffix (cap : ℚ) (hcap : 0 < cap) :
    ∀ (fuel : ℕ) (g : List ℚ) (t : List ℤ) (j : List Bool),
      g.length ≤ fuel →
      ∃ k, evictLoop fuel g t j cap = (g.drop k, t.drop k, j.drop k) ∧
        ((g.drop k).length : ℚ) ≤ cap := by
  intro fuel
  induction fuel with
  | zero =>
      intro g t j hlen
      refine ⟨0, rfl, ?_⟩
      have : g.length = 0 := by omega
      simp [this, hcap.le]
  | succ fuel ih =>
      intro g t j hlen
      by_cases hgt : (g.length : ℚ) > cap
      · have hne : g.length ≠ 0 := by
          intro h
          rw [h] at hgt
          exact absurd hgt (by push_cast; linarith)
        have htl : g.tail.length ≤ fuel := by
          rw [List.length_tail]; omega
        obtain ⟨k, hk, hb⟩ := ih g.tail t.tail j.tail htl
        refine ⟨k + 1, ?_, ?_⟩
        · have hstep : evictLoop (fuel + 1) g t j cap =
              evictLoop fuel g.tail t.tail j.tail cap := by
            simp only [evictLoop]
            rw [if_pos hgt]
          rw [hstep, hk]
          have e1 : g.tail.drop k = g.drop (k + 1) := by
            rw [← List.drop_one, List.drop_drop, Nat.add_comm]
          have e2 : t.tail.drop k = t.drop (k + 1) := by
            rw [← List.drop_one, List.drop_drop, Nat.add_comm]
          have e3 : j.tail.drop k = j.drop (k + 1) := by
            rw [← List.drop_one, List.drop_drop, Nat.add_comm]
          rw [e1, e2, e3]
        · have e1 : g.tail.drop k = g.drop (k + 1) := by
            rw [← List.drop_one, List.drop_drop, Nat.add_comm]
          rw [← e1]
          exact hb
      · refine ⟨0, ?_, ?_⟩
        · simp only [evictLoop]
          rw [if_neg hgt]
          rfl
        · simpa using not_lt.mp hgt

/-- Claim C7 (amended): after the append step of a frame, the sample buffer
holds at most `⌊fps * 10⌋ + 1` entries, where `fps` is the rate measured
before the append (the bound `⌈fps * 10⌉` of the claim holds only when
`fps * 10` is not an integer); and eviction is strictly FIFO: the surviving
entries are exactly a suffix (`drop k`) of each original buffer, in
unchanged relative order, the same number `k` of oldest entries being
removed from the value, timestamp, and flag buffers alike. -/
theorem processStep_amended (g : List ℚ) (t : List ℤ) (j : List Bool)
    (timeBase v : ℚ) (time : ℤ) (flag : Bool)
    (hfps : 0 < getFps t timeBase) :
    ∃ k, processStep g t j timeBase v time flag =
        (g.drop k ++ [v], t.drop k ++ [time], j.drop k ++ [flag]) ∧
      (processStep g t j timeBase v time flag).1.length ≤
        (⌊getFps t timeBase * 10⌋).toNat + 1 := by
  have hcap : 0 < getFps t timeBase * 10 := by positivity
  obtain ⟨k, hk, hb⟩ :=
    evictLoop_suffix (getFps t timeBase * 10) hcap g.length g t j (le_refl _)
  refine ⟨k, ?_, ?_⟩
  · simp only [processStep, hk]
  · have hlen : ((g.drop k).length : ℤ) ≤ ⌊getFps t timeBase * 10⌋ := by
      rw [Int.le_floor]
      exact_mod_cast hb
    have : (processStep g t j timeBase v time flag).1 = g.drop k ++ [v] := by
      simp only [processStep, hk]
    rw [this, List.length_append]
    simp only [List.length_cons, List.length_nil]
    omega

/-- Witness for the amended C7 theorem at the concrete buffers of the
counterexample frame. -/
theorem processStep_amended_witness :
    ∃ k, processStep [0, 0] [0, 10] [false, false] 1 5 20 false =
        (([0, 0] : List ℚ).drop k ++ [5], ([0, 10] : List ℤ).drop k ++ [20],
          ([false, false] : List Bool).drop k ++ [false]) ∧
      (processStep [0, 0] [0, 10] [false, false] 1 5 20 false).1.length ≤
        (⌊getFps [0, 10] 1 * 10⌋).toNat + 1 := by
  refine processStep_amended [0, 0] [0, 10] [false, false] 1 5 20 false ?_
  rw [getFps_eq]
  simp [elapsedTime]

/-- Reflect-101 border index of OpenCV (`BORDER_REFLECT_101`, the default of
`cv::blur`): out-of-range indices are reflected about the edge pixels
without repeating them, which on a column of `n ≥ 2` rows is the triangular
wave of period `2(n-1)`; a single-row column always maps to row 0. -/
def refl101 (n : ℕ) (i : ℤ) : ℕ :=
  if n ≤ 1 then 0
  else
    let p := 2 * (n - 1)
    let m := (i % (p : ℤ)).toNat
    if m ≤ n - 1 then m else p - m

/-- Read of one column entry, `xs.at(i)` after border interpolation. -/
def getAt (xs : List ℚ) (i : ℕ) : ℚ := xs.getD i 0

/-- Sum of `s` consecutive taps of `xs`, read through the reflect-101
border, starting at offset `base`. -/
def tapSum (xs : List ℚ) (base : ℤ) : ℕ → ℚ
  | 0 => 0
  | w + 1 => tapSum xs base w + getAt xs (refl101 xs.length (base + w))

/-- One pass of `cv::blur` with kernel `Size(s, s)` over an n-by-1 column of
doubles: horizontally every reflected coordinate hits the single column, so
the `s * s` normalized box kernel reduces to the vertical mean of `s` taps
anchored at `s / 2` (integer division), with reflect-101 borders. -/
def blur1 (xs : List ℚ) (s : ℕ) : List ℚ :=
  if s = 0 then xs
  else xs.mapIdx fun i _ =>
    tapSum xs ((i : ℤ) - ((s / 2 : ℕ) : ℤ)) s / (s : ℚ)

/-- Embedding of `cv::movingAverage` (opencv.cpp, lines 294-300): the blur is
applied `n` times in place with kernel size `s`. -/
def movingAverage (xs : List ℚ) (n s : ℕ) : List ℚ :=
  match n with
  | 0 => xs
  | m + 1 => blur1 (movingAverage xs m s) s

/-- The smoothing stage of `RPPGSimple::extractSignal_den_detr_mean`
(RPPGSimple.cpp, lines 250-253): the call passes `n = 3` and the double
`fps / 3` as the kernel size, which the `int` parameter of the moving-average
filter truncates toward zero. -/
def smoothStage (xs : List ℚ) (fps : ℚ) : List ℚ :=
  movingAverage xs 3 (truncQ (fps / 3)).toNat

/-- The smoothing stage as worded by claim C8: kernel size `round(fps / 3)`,
repeated 3 times. -/
def smoothStageSpec (xs : List ℚ) (fps : ℚ) : List ℚ :=
  movingAverage xs 3 (round (fps / 3)).toNat

set_option maxHeartbeats 3000000 in
/-- Claim C8 (counterexample): at the measured rate `fps = 29`, the code's
kernel size is `(int)(29 / 3) = 9` while the claimed `round(29 / 3) = 10`;
on the window `[1, 0, 0]` three passes of the two kernels give different
outputs, so the smoothing stage does not use `round(fps / 3)`. -/
theorem smoothStage_claim_counterexample :
    smoothStage [1, 0, 0] 29 = [61 / 243, 182 / 729, 182 / 729] ∧
    smoothStageSpec [1, 0, 0] 29 = [139 / 500, 139 / 500, 277 / 1000] ∧
    ([61 / 243, 182 / 729, 182 / 729] : List ℚ) ≠
      [139 / 500, 139 / 500, 277 / 1000] := by
  have htr : (truncQ (29 / 3 : ℚ)).toNat = 9 := by
    have h : truncQ (29 / 3 : ℚ) = 9 := by norm_num [truncQ]
    rw [h]
    rfl
  have hro : (round (29 / 3 : ℚ)).toNat = 10 := by
    have h : round (29 / 3 : ℚ) = 10 := by
      rw [round_eq]
      norm_num
    rw [h]
    rfl
  have r1 : refl101 3 (-5) = 1 := by decide
  have r2 : refl101 3 (-4) = 0 := by decide
  have r3 : refl101 3 (-3) = 1 := by decide
  have r4 : refl101 3 (-2) = 2 := by decide
  have r5 : refl101 3 (-1) = 1 := by decide
  have r6 : refl101 3 0 = 0 := by decide
  have r7 : refl101 3 1 = 1 := by decide
  have r8 : refl101 3 2 = 2 := by decide
  have r9 : refl101 3 3 = 1 := by decide
  have r10 : refl101 3 4 = 0 := by decide
  have r11 : refl101 3 5 = 1 := by decide
  have r12 : refl101 3 6 = 2 := by decide
  have b1 : blur1 [1, 0, 0] 9 = [1 / 3, 2 / 9, 2 / 9] := by
    norm_num [blur1, tapSum, getAt, r1, r2, r3, r4, r5, r6, r7, r8, r9, r10, r11, r12]
  have b2 : blur1 [1 / 3, 2 / 9, 2 / 9] 9 = [7 / 27, 20 / 81, 20 / 81] := by
    norm_num [blur1, tapSum, getAt, r1, r2, r3, r4, r5, r6, r7, r8, r9, r10, r11, r12]
  have b3 : blur1 [7 / 27, 20 / 81, 20 / 81] 9 = [61 / 243, 182 / 729, 182 / 729] := by
    norm_num [blur1, tapSum, getAt, r1, r2, r3, r4, r5, r6, r7, r8, r9, r10, r11, r12]
  have c1 : blur1 [1, 0, 0] 10 = [3 / 10, 3 / 10, 1 / 5] := by
    norm_num [blur1, tapSum, getAt, r1, r2, r3, r4, r5, r6, r7, r8, r9, r10, r11, r12]
  have c2 : blur1 [3 / 10, 3 / 10, 1 / 5] 10 = [7 / 25, 7 / 25, 27 / 100] := by
    norm_num [blur1, tapSum, getAt, r1, r2, r3, r4, r5, r6, r7, r8, r9, r10, r11, r12]
  have c3 : blur1 [7 / 25, 7 / 25, 27 / 100] 10 =
      [139 / 500, 139 / 500, 277 / 1000] := by
    norm_num [blur1, tapSum, getAt, r1, r2, r3, r4, r5, r6, r7, r8, r9, r10, r11, r12]
  refine ⟨?_, ?_, by norm_num⟩
  · simp only [smoothStage, htr, movingAverage]
    rw [b1, b2, b3]
  · simp only [smoothStageSpec, hro, movingAverage]
    rw [c1, c2, c3]

/-- Length preservation of one blur pass. -/
theorem blur1_length (xs : List ℚ) (s : ℕ) : (blur1 xs s).length = xs.length := by
  by_cases hs : s = 0
  · simp [blur1, hs]
  · simp [blur1, hs]

/-- Claim C8 (amended): the smoothing stage applies the moving-average blur
with kernel size `s = ⌊fps / 3⌋` — the double `fps / 3` truncated by the
`int` kernel-size parameter, not rounded — and the blur is applied exactly
3 times; the stage preserves the window length. -/
theorem smoothStage_amended (xs : List ℚ) (fps : ℚ) (hfps : 0 < fps) :
    smoothStage xs fps =
      blur1 (blur1 (blur1 xs (⌊fps / 3⌋).toNat) (⌊fps / 3⌋).toNat)
        (⌊fps / 3⌋).toNat ∧
    (smoothStage xs fps).length = xs.length := by
  have htr : truncQ (fps / 3) = ⌊fps / 3⌋ := by
    rw [truncQ, if_neg]
    push_neg
    positivity
  have hmain : smoothStage xs fps =
      blur1 (blur1 (blur1 xs (⌊fps / 3⌋).toNat) (⌊fps / 3⌋).toNat)
        (⌊fps / 3⌋).toNat := by
    simp only [smoothStage, htr, movingAverage]
  refine ⟨hmain, ?_⟩
  rw [hmain, blur1_length, blur1_length, blur1_length]

/-- Witness for the amended C8 theorem at the window `[1, 0, 0]` and
`fps = 29`. -/
theorem smoothStage_amended_witness :
    smoothStage [1, 0, 0] 29 =
      blur1 (blur1 (blur1 [1, 0, 0] (⌊(29 : ℚ) / 3⌋).toNat)
        (⌊(29 : ℚ) / 3⌋).toNat) (⌊(29 : ℚ) / 3⌋).toNat ∧
    (smoothStage [1, 0, 0] 29).length = ([1, 0, 0] : List ℚ).length :=
  smoothStage_amended [1, 0, 0] 29 (by norm_num)

open Matrix

/-- The second-difference operator built by `cv::detrend`'s diagonal-filling
loop (opencv.cpp, lines 282-287): `d2Aux = ones(t-2, 1) * [1, -2, 1]` and
`d2Aux.col(k)` is copied onto `d2.diag(k)` for `k = 0, 1, 2`, where
`Mat::diag(k)` with `k ≥ 0` starts at entry `(0, k)`; hence row `r` carries
`1, -2, 1` at columns `r, r+1, r+2`. -/
def d2mat (t : ℕ) : Matrix (Fin (t - 2)) (Fin t) ℚ :=
  fun r c =>
    if (c : ℕ) = (r : ℕ) then 1
    else if (c : ℕ) = (r : ℕ) + 1 then -2
    else if (c : ℕ) = (r : ℕ) + 2 then 1
    else 0

/-- Computable inverse of a rational matrix, `det⁻¹ • adjugate`; it agrees
with Mathlib's nonsingular inverse over the field ℚ. -/
def qInv {m : ℕ} (M : Matrix (Fin m) (Fin m) ℚ) : Matrix (Fin m) (Fin m) ℚ :=
  (M.det)⁻¹ • M.adjugate

/-- The regularized system matrix `I + λ² DᵀD` of `cv::detrend`
(`i + lambda * lambda * d2.t() * d2`, with the `int` λ squared exactly). -/
def detrendM (t : ℕ) (lam : ℤ) : Matrix (Fin t) (Fin t) ℚ :=
  1 + ((lam : ℚ) ^ 2) • ((d2mat t)ᵀ * d2mat t)

/-- Embedding of `cv::detrend` (opencv.cpp, lines 274-291): the identity for
fewer than 3 samples, otherwise
`b = (I - (I + λ² DᵀD)⁻¹) * a` applied to the column vector `a`. -/
def detrend (a : List ℚ) (lam : ℤ) : List ℚ :=
  if a.length < 3 then a
  else List.ofFn ((1 - qInv (detrendM a.length lam)).mulVec fun i => a.get i)

theorem qInv_eq_inv {m : ℕ} (M : Matrix (Fin m) (Fin m) ℚ) : qInv M = M⁻¹ := by
  rw [qInv, Matrix.inv_def, Ring.inverse_eq_inv']

theorem d2mat_mulVec (t : ℕ) (x : Fin t → ℚ) (r : Fin (t - 2))
    (h1 : (r : ℕ) < t) (h2 : (r : ℕ) + 1 < t) (h3 : (r : ℕ) + 2 < t) :
    (d2mat t).mulVec x r =
      x ⟨(r : ℕ), h1⟩ - 2 * x ⟨(r : ℕ) + 1, h2⟩ + x ⟨(r : ℕ) + 2, h3⟩ := by
  have hdecomp : ∀ c : Fin t, d2mat t r c =
      (if c = (⟨(r : ℕ), h1⟩ : Fin t) then (1 : ℚ) else 0) +
      (if c = (⟨(r : ℕ) + 1, h2⟩ : Fin t) then (-2 : ℚ) else 0) +
      (if c = (⟨(r : ℕ) + 2, h3⟩ : Fin t) then (1 : ℚ) else 0) := by
    intro c
    simp only [d2mat, Fin.ext_iff]
    split_ifs <;> first | (exfalso; omega) | ring
  simp only [Matrix.mulVec, Matrix.dotProduct]
  rw [Finset.sum_congr rfl fun c _ => by rw [hdecomp c]]
  simp only [add_mul, Finset.sum_add_distrib, ite_mul, zero_mul, one_mul, neg_mul]
  rw [Finset.sum_ite_eq' Finset.univ (⟨(r : ℕ), h1⟩ : Fin t) fun c => x c]
  rw [Finset.sum_ite_eq' Finset.univ (⟨(r : ℕ) + 1, h2⟩ : Fin t) fun c => -(2 * x c)]
  rw [Finset.sum_ite_eq' Finset.univ (⟨(r : ℕ) + 2, h3⟩ : Fin t) fun c => x c]
  simp
  ring

theorem detrendM_isUnit_det (t : ℕ) (lam : ℤ) : IsUnit (detrendM t lam).det := by
  rw [isUnit_iff_ne_zero]
  intro hdet
  obtain ⟨v, hv0, hMv⟩ := Matrix.exists_mulVec_eq_zero_iff.mpr hdet
  have hparts : v ⬝ᵥ (detrendM t lam).mulVec v =
      v ⬝ᵥ v + (lam : ℚ) ^ 2 *
        ((d2mat t).mulVec v ⬝ᵥ (d2mat t).mulVec v) := by
    rw [detrendM, Matrix.add_mulVec, Matrix.one_mulVec, Matrix.smul_mulVec_assoc,
      dotProduct_add, Matrix.dotProduct_smul, smul_eq_mul]
    congr 1
    rw [← Matrix.mulVec_mulVec, Matrix.dotProduct_mulVec, Matrix.vecMul_transpose]
  rw [hMv, Matrix.dotProduct_zero] at hparts
  have hnn1 : 0 ≤ v ⬝ᵥ v := by
    unfold Matrix.dotProduct
    exact Finset.sum_nonneg fun i _ => mul_self_nonneg (v i)
  have hnn2 : 0 ≤ (d2mat t).mulVec v ⬝ᵥ (d2mat t).mulVec v := by
    unfold Matrix.dotProduct
    exact Finset.sum_nonneg fun i _ => mul_self_nonneg _
  have hnn3 : (0 : ℚ) ≤ (lam : ℚ) ^ 2 := sq_nonneg _
  have hvv : v ⬝ᵥ v = 0 := by nlinarith [mul_nonneg hnn3 hnn2]
  exact hv0 (Matrix.dotProduct_self_eq_zero.mp hvv)

/-- Claim C5: for fewer than 3 samples the detrender is the identity; for
`n ≥ 3` the system matrix `I + λ² DᵀD` is invertible (`D` being the
`(n-2) × n` operator whose row `r` acts as the second difference
`x(r) - 2·x(r+1) + x(r+2)`), the computable inverse coincides with the true
matrix inverse, and the output is `b = a - (I + λ² DᵀD)⁻¹ a` — the code's
`(I - (I + λ² DᵀD)⁻¹) a` rewritten entrywise. -/
theorem detrend_spec (a : List ℚ) (lam : ℤ) :
    (a.length < 3 → detrend a lam = a) ∧
    (3 ≤ a.length →
      IsUnit (detrendM a.length lam).det ∧
      qInv (detrendM a.length lam) = (detrendM a.length lam)⁻¹ ∧
      (∀ (x : Fin a.length → ℚ) (r : Fin (a.length - 2)),
        (d2mat a.length).mulVec x r =
          x ⟨(r : ℕ), by have hr := r.isLt; omega⟩ -
            2 * x ⟨(r : ℕ) + 1, by have hr := r.isLt; omega⟩ +
            x ⟨(r : ℕ) + 2, by have hr := r.isLt; omega⟩) ∧
      detrend a lam = List.ofFn fun i : Fin a.length =>
        a.get i - (qInv (detrendM a.length lam)).mulVec (fun k => a.get k) i) := by
  constructor
  · intro h
    simp only [detrend, if_pos h]
  · intro h3
    have hlt : ¬ a.length < 3 := by omega
    refine ⟨detrendM_isUnit_det _ _, qInv_eq_inv _, ?_, ?_⟩
    · intro x r
      exact d2mat_mulVec a.length x r _ _ _
    · simp only [detrend, if_neg hlt]
      congr 1
      funext i
      rw [Matrix.sub_mulVec, Matrix.one_mulVec]
      rfl

/-- Witness for C5 at the three-sample window `[0, 0, 0]` with `λ = 1`. -/
theorem detrend_spec_witness :
    IsUnit (detrendM ([0, 0, 0] : List ℚ).length 1).det ∧
    qInv (detrendM ([0, 0, 0] : List ℚ).length 1) =
      (detrendM ([0, 0, 0] : List ℚ).length 1)⁻¹ ∧
    (∀ (x : Fin ([0, 0, 0] : List ℚ).length → ℚ)
        (r : Fin (([0, 0, 0] : List ℚ).length - 2)),
      (d2mat ([0, 0, 0] : List ℚ).length).mulVec x r =
        x ⟨(r : ℕ), by have hr := r.isLt; omega⟩ -
          2 * x ⟨(r : ℕ) + 1, by have hr := r.isLt; omega⟩ +
          x ⟨(r : ℕ) + 2, by have hr := r.isLt; omega⟩) ∧
    detrend [0, 0, 0] 1 = List.ofFn fun i : Fin ([0, 0, 0] : List ℚ).length =>
      ([0, 0, 0] : List ℚ).get i -
        (qInv (detrendM ([0, 0, 0] : List ℚ).length 1)).mulVec
          (fun k => ([0, 0, 0] : List ℚ).get k) i :=
  (detrend_spec [0, 0, 0] 1).2 (by decide)

end Heartbeat
